import Mathlib

/-!
Verification of the mesh planarisation core
(`src/compas/datastructures/mesh/algorithms/planarisation.py`).

Points carry exact rational coordinates.  The geometry-kernel primitives
(`bestfit_plane_from_points`, `project_points_plane`, `centroid_points`,
`angle_smallest_vectors`, `window`) are imported by the source from
`compas.geometry` / `compas.utilities` and are not part of the repository
snapshot; they are modelled from the spec (each such definition says so in
its doc comment).  Python exceptions are modelled with `Except` /
an explicit error field, in-place mutation by returning the updated mesh,
and the per-iteration callback by a trace of the iteration indices at
which it is invoked.
-/

/-- A 3d point / vector with exact rational coordinates (the source uses
Python floats; x, y, z components). -/
@[ext]
structure Point where
  x : ℚ
  y : ℚ
  z : ℚ
deriving DecidableEq, Repr

def zeroPoint : Point := ⟨0, 0, 0⟩

/-- `compas.geometry.subtract_vectors`: componentwise difference. -/
def subtract_vectors (u v : Point) : Point :=
  ⟨u.x - v.x, u.y - v.y, u.z - v.z⟩

/-- `compas.geometry.cross_vectors`: the cross product. -/
def cross_vectors (u v : Point) : Point :=
  ⟨u.y * v.z - u.z * v.y, u.z * v.x - u.x * v.z, u.x * v.y - u.y * v.x⟩

/-- `compas.geometry.dot_vectors`: the dot product. -/
def dot_vectors (u v : Point) : ℚ :=
  u.x * v.x + u.y * v.y + u.z * v.z

/-- `compas.geometry.scale_vector`: scale a vector by a factor. -/
def scale_vector (u : Point) (c : ℚ) : Point :=
  ⟨c * u.x, c * u.y, c * u.z⟩

/-- The error conditions of the planarisation core (spec section 7, plus the
Python `KeyError` that a face referencing a missing vertex key would raise,
and the zero-length-vector error condition of the angle computation). -/
inductive PlanErr where
  | invalidCallback
  | degenerateInput
  | emptyInput
  | keyError
  | zeroLengthVector
deriving DecidableEq, Repr

/-- All ordered pairs `(a, b)` with `a` drawn from the second list and `b`
from the first (helper for the best-fit-plane model). -/
def pairsFrom (l : List Point) : List Point → List (Point × Point)
  | [] => []
  | a :: as => (l.map fun b => (a, b)) ++ pairsFrom l as

/-- First pair of difference vectors from `p0` with a nonzero cross product
(helper for the best-fit-plane model). -/
def firstNormal (p0 : Point) : List (Point × Point) → Option Point
  | [] => none
  | ab :: rest =>
    let n := cross_vectors (subtract_vectors ab.1 p0) (subtract_vectors ab.2 p0)
    if n = zeroPoint then firstNormal p0 rest else some n

/-- Modelled from the spec: `bestfit_plane_from_points` (from
`compas.geometry`, not in the repository snapshot).  Spec section 4.1: it
returns a base point and a normal, fails with `DegenerateInputError` on
fewer than 3 points or on all-collinear points, and its normal orientation
is implementation-defined but deterministic.  The model anchors the plane
at the first point and takes as normal the first nonzero cross product of
difference vectors from it; on input that admits an exactly fitting plane
(the only case the theorems below evaluate it on) this is that plane,
which is what a least-squares fit returns there (zero residual). -/
def bestfit_plane_from_points (points : List Point) : Except PlanErr (Point × Point) :=
  match points with
  | [] => .error .degenerateInput
  | p0 :: rest =>
    if (p0 :: rest).length < 3 then .error .degenerateInput
    else
      match firstNormal p0 (pairsFrom rest rest) with
      | none => .error .degenerateInput
      | some n => .ok (p0, n)

/-- Modelled from the spec: orthogonal projection of one point onto a plane
(`project_points_plane` from `compas.geometry`, not in the repository
snapshot; spec section 4.1: each output point lies exactly on the plane). -/
def project_point_plane (p : Point) (plane : Point × Point) : Point :=
  let t := dot_vectors (subtract_vectors p plane.1) plane.2 / dot_vectors plane.2 plane.2
  subtract_vectors p (scale_vector plane.2 t)

/-- Modelled from the spec: `project_points_plane` (spec section 4.1:
orthogonal projection, preserves input ordering and count). -/
def project_points_plane (points : List Point) (plane : Point × Point) : List Point :=
  points.map fun p => project_point_plane p plane

/-- Modelled from the spec: `centroid_points` (from `compas.geometry`, not in
the repository snapshot).  Spec sections 4.1 and 7: arithmetic mean, fails
with `EmptyInputError` on empty input. -/
def centroid_points (points : List Point) : Except PlanErr Point :=
  match points with
  | [] => .error .emptyInput
  | _ :: _ =>
    .ok ⟨(points.map Point.x).sum / points.length,
         (points.map Point.y).sum / points.length,
         (points.map Point.z).sum / points.length⟩

/-- Dictionary lookup by key (Python dict access on the mesh's vertex and
face dictionaries). -/
def lookupKey {β : Type _} (k : Nat) : List (Nat × β) → Option β
  | [] => none
  | kv :: t => if kv.1 = k then some kv.2 else lookupKey k t

/-- The mesh, as the planarisation core sees it: vertex keys with positions,
and face keys with ordered vertex-key lists (spec section 3). -/
structure Mesh where
  vertices : List (Nat × Point)
  faces : List (Nat × List Nat)
deriving DecidableEq, Repr

/-- Position of a vertex (the `x`, `y`, `z` attributes). -/
def Mesh.vertexPos (m : Mesh) (key : Nat) : Point :=
  (lookupKey key m.vertices).getD zeroPoint

/-- `mesh.face_vertices(fkey)`: the ordered vertex keys of a face. -/
def Mesh.face_vertices (m : Mesh) (fkey : Nat) : List Nat :=
  (lookupKey fkey m.faces).getD []

/-- `mesh.face_coordinates(fkey)`: the ordered corner positions of a face. -/
def Mesh.face_coordinates (m : Mesh) (fkey : Nat) : List Point :=
  (m.face_vertices fkey).map m.vertexPos

/-- Write a vertex position (the in-place `attr` update of the source). -/
def Mesh.setVertexPos (m : Mesh) (key : Nat) (p : Point) : Mesh :=
  { m with vertices := m.vertices.map fun kv => if kv.1 = key then (kv.1, p) else kv }

/-- A Python callback argument other than `None`: the engine only ever asks
whether it is truthy (`if callback:`) and whether it is callable
(`callable(callback)`), so it is modelled by those two independent bits. -/
structure CallbackVal where
  truthy : Bool
  callable : Bool
deriving DecidableEq, Repr

/-- A Python callback argument; `none` is Python's `None`. -/
abbrev PyCallback := Option CallbackVal

/-- Python truthiness of the callback argument (`None` is falsy). -/
def cbTruthy : PyCallback → Bool
  | none => false
  | some c => c.truthy

/-- Python `callable(...)` on the callback argument (`None` is not callable). -/
def cbCallable : PyCallback → Bool
  | none => false
  | some c => c.callable

/-- Error-propagating map over a list (the Python `for` loops that build a
list and may raise). -/
def mapExcept (f : α → Except PlanErr β) : List α → Except PlanErr (List β)
  | [] => .ok []
  | a :: as =>
    match f a with
    | .error e => .error e
    | .ok b =>
      match mapExcept f as with
      | .error e => .error e
      | .ok bs => .ok (b :: bs)

/-- One face of the projection pass of `mesh_planarize`
(planarisation.py lines 115-121): best-fit plane of the face's corners,
project the corners onto it, pair each projected corner with its vertex key.
A vertex key missing from the mesh (`key_xyz[key]` on an absent key) is the
Python `KeyError`. -/
def faceContributions (m : Mesh) (fkey : Nat) : Except PlanErr (List (Nat × Point)) :=
  match bestfit_plane_from_points (m.face_coordinates fkey) with
  | .error e => .error e
  | .ok plane =>
    if (m.face_vertices fkey).all fun k => (lookupKey k m.vertices).isSome then
      .ok ((m.face_vertices fkey).zip
            (project_points_plane (m.face_coordinates fkey) plane))
    else .error .keyError

/-- The whole projection pass, in face order. -/
def collectContributions (m : Mesh) : List (Nat × List Nat) → Except PlanErr (List (Nat × Point))
  | [] => .ok []
  | f :: fs =>
    match faceContributions m f.1 with
    | .error e => .error e
    | .ok cs =>
      match collectContributions m fs with
      | .error e => .error e
      | .ok rest => .ok (cs ++ rest)

/-- `key_xyz[key]`: the projected contributions accumulated for one vertex,
in face order. -/
def keyXYZ (contribs : List (Nat × Point)) (key : Nat) : List Point :=
  (contribs.filter fun c => c.1 == key).map fun c => c.2

/-- The accumulation pass of `mesh_planarize` (planarisation.py lines
123-130): every vertex not in `fixed` is moved to the centroid of its
contributions; an error mid-pass leaves the vertices already visited
updated (the in-place mutation of the source). -/
def applyCentroids (fixed : List Nat) (contribs : List (Nat × Point)) :
    Mesh → List Nat → Except (PlanErr × Mesh) Mesh
  | m, [] => .ok m
  | m, key :: keys =>
    if key ∈ fixed then applyCentroids fixed contribs m keys
    else
      match centroid_points (keyXYZ contribs key) with
      | .error e => .error (e, m)
      | .ok c => applyCentroids fixed contribs (m.setVertexPos key c) keys

/-- One iteration of `mesh_planarize`: projection pass then accumulation
pass.  An error carries the mesh state at the moment it is raised. -/
def planarizeIteration (fixed : List Nat) (m : Mesh) : Except (PlanErr × Mesh) Mesh :=
  match collectContributions m m.faces with
  | .error e => .error (e, m)
  | .ok contribs => applyCentroids fixed contribs m (m.vertices.map fun v => v.1)

/-- Result of a `mesh_planarize` call: final mesh state (also on error, since
the source mutates in place), the iteration indices at which the callback
was invoked, and the raised error if any. -/
structure PlanResult where
  mesh : Mesh
  trace : List Nat
  error : Option PlanErr
deriving DecidableEq, Repr

/-- The `for k in range(kmax)` loop of `mesh_planarize` (lines 111-133):
iterate, then invoke the callback (`if callback: callback(mesh, k,
callback_args)`) when `invoke` holds, recording its invocation in the
trace. -/
def planarizeLoop (fixed : List Nat) (invoke : Bool) :
    Nat → Nat → Mesh → List Nat → PlanResult
  | _, 0, m, tr => ⟨m, tr, none⟩
  | k, n + 1, m, tr =>
    match planarizeIteration fixed m with
    | .error (e, m1) => ⟨m1, tr, some e⟩
    | .ok m1 => planarizeLoop fixed invoke (k + 1) n m1 (tr ++ if invoke then [k] else [])

/-- `mesh_planarize(mesh, fixed, kmax, d, callback, callback_args)`
(planarisation.py lines 70-133).  Python's `range(kmax)` on an `int` is
empty for `kmax <= 0`, hence `kmax.toNat` iterations.  The damping factor
`d` and `callback_args` are accepted and never used in the update, exactly
as in the source. -/
def mesh_planarize (m : Mesh) (fixed : List Nat) (kmax : ℤ) (d : ℚ)
    (callback : PyCallback) (callback_args : List ℚ) : PlanResult :=
  if cbTruthy callback && !cbCallable callback then ⟨m, [], some .invalidCallback⟩
  else planarizeLoop fixed (cbTruthy callback) 0 kmax.toNat m []

/-- `mesh_planarize_shapeop` (planarisation.py lines 136-178): validate the
callback, then hand the mesh, the fixed vertices and `kmax` to the external
ShapeOp solver (opaque, hence a parameter).  `d`, `callback` and
`callback_args` play no further part; the empty trace records that the
callback is never invoked. -/
def mesh_planarize_shapeop (solver : Mesh → List Nat → ℤ → Mesh) (m : Mesh)
    (fixed : List Nat) (kmax : ℤ) (d : ℚ) (callback : PyCallback)
    (callback_args : List ℚ) : Except (PlanErr × Mesh) (Mesh × List Nat) :=
  if cbTruthy callback && !cbCallable callback then .error (.invalidCallback, m)
  else .ok (solver m fixed kmax, [])

/-- The mesh carried by an `Except` result, on success or at the moment an
error was raised. -/
def carriedMesh : Except (PlanErr × Mesh) Mesh → Mesh
  | .ok m => m
  | .error (_, m) => m

deriving instance DecidableEq for Except

/-- A single unfixed vertex incident to no face: the failing input of the
empty-centroid defect. -/
def isolatedVertexMesh : Mesh := ⟨[(0, zeroPoint)], []⟩

/-- A one-vertex mesh whose only vertex is held fixed in the callback
scenarios below, so that a planarisation iteration performs no update. -/
def oneFixedMesh : Mesh := ⟨[(0, ⟨1, 2, 3⟩)], []⟩

/-- The corner positions are exactly coplanar: some plane with a nonzero
normal contains them all. -/
def CoplanarPts (pts : List Point) : Prop :=
  ∃ b n, n ≠ zeroPoint ∧ ∀ p ∈ pts, dot_vectors (subtract_vectors p b) n = 0

/-- Modelled from the spec: `window(seq, 3)` (from `compas.utilities`, not in
the repository snapshot): the successive sliding windows of width three over
a sequence, advancing by one element. -/
def window3 {α : Type _} : List α → List (α × α × α)
  | a :: b :: c :: rest => (a, b, c) :: window3 (b :: c :: rest)
  | _ => []

/-- Modelled from the spec: `angle_smallest_vectors` (from `compas.geometry`,
not in the repository snapshot).  Spec section 4.1: the smaller of the two
angles between the vectors, in `[0, π]`; zero-length input is a defined
error condition (the Python implementation divides by the product of the
vector lengths and raises on zero). -/
noncomputable def angle_smallest_vectors (u v : Point) : Except PlanErr ℝ :=
  if u = zeroPoint ∨ v = zeroPoint then .error .zeroLengthVector
  else .ok (Real.arccos ((dot_vectors u v : ℝ) /
    (Real.sqrt ((dot_vectors u u : ℚ) : ℝ) * Real.sqrt ((dot_vectors v v : ℚ) : ℝ))))

/-- The per-face body of `mesh_flatness` (planarisation.py lines 53-66):
best-fit plane, one local normal `cross(a-b, c-b)` per corner triple of
`window(points + points[0:2], 3)`, the best-fit normal negated for the
comparison when `dot(n, normal) <= 0`, and the mean of the angles. -/
noncomputable def faceDev (points : List Point) : Except PlanErr ℝ :=
  match bestfit_plane_from_points points with
  | .error e => .error e
  | .ok plane =>
    match mapExcept (fun t =>
        let u := subtract_vectors t.1 t.2.1
        let v := subtract_vectors t.2.2 t.2.1
        let n := cross_vectors u v
        if dot_vectors n plane.2 > 0 then angle_smallest_vectors n plane.2
        else angle_smallest_vectors n (scale_vector plane.2 (-1)))
      (window3 (points ++ points.take 2)) with
    | .error e => .error e
    | .ok angles => .ok (angles.sum / (angles.length : ℝ))

/-- `mesh_flatness(mesh)` (planarisation.py lines 33-67): the per-face
deviation from flatness, in face order. -/
noncomputable def mesh_flatness (m : Mesh) : Except PlanErr (List (Nat × ℝ)) :=
  mapExcept (fun f =>
    match faceDev (m.face_coordinates f.1) with
    | .error e => .error e
    | .ok dev => .ok (f.1, dev)) m.faces

/-- The per-face deviation as the claim words it: one corner triple
`(points[i], points[(i+1) % n], points[(i+2) % n])` for every `i < n` (each
corner is the middle vertex of exactly one triple), local normal
`cross(a-b, c-b)`, the best-fit normal negated when `dot(n, normal) <= 0`,
and the arithmetic mean of the `n` angles. -/
noncomputable def faceDevSpec (points : List Point) : Except PlanErr ℝ :=
  match bestfit_plane_from_points points with
  | .error e => .error e
  | .ok plane =>
    match mapExcept (fun i =>
        let a := points.getD i zeroPoint
        let b := points.getD ((i + 1) % points.length) zeroPoint
        let c := points.getD ((i + 2) % points.length) zeroPoint
        let n := cross_vectors (subtract_vectors a b) (subtract_vectors c b)
        if dot_vectors n plane.2 ≤ 0 then angle_smallest_vectors n (scale_vector plane.2 (-1))
        else angle_smallest_vectors n plane.2)
      (List.range points.length) with
    | .error e => .error e
    | .ok angles => .ok (angles.sum / (angles.length : ℝ))

/-- A planar unit square face. -/
def squareMesh : Mesh :=
  ⟨[(0, ⟨0, 0, 0⟩), (1, ⟨1, 0, 0⟩), (2, ⟨1, 1, 0⟩), (3, ⟨0, 1, 0⟩)], [(0, [0, 1, 2, 3])]⟩

/-- A coplanar quad whose first three corners are collinear. -/
def collinearQuadMesh : Mesh :=
  ⟨[(0, ⟨0, 0, 0⟩), (1, ⟨1, 0, 0⟩), (2, ⟨2, 0, 0⟩), (3, ⟨1, 1, 0⟩)], [(0, [0, 1, 2, 3])]⟩

/-- A single triangular face with the given corner positions. -/
def triangleMesh (a b c : Point) : Mesh :=
  ⟨[(0, a), (1, b), (2, c)], [(0, [0, 1, 2])]⟩

/- ------------------------------------------------------------------ -/
/- Vector algebra lemmas                                              -/
/- ------------------------------------------------------------------ -/

theorem cross_vectors_self (v : Point) : cross_vectors v v = zeroPoint := by
  ext <;> simp [cross_vectors, zeroPoint] <;> ring

theorem scale_vector_eq_zero_iff (v : Point) (c : ℚ) :
    scale_vector v c = zeroPoint ↔ c = 0 ∨ v = zeroPoint := by
  constructor
  · intro h
    by_cases hc : c = 0
    · exact Or.inl hc
    · refine Or.inr ?_
      have hx := congrArg Point.x h
      have hy := congrArg Point.y h
      have hz := congrArg Point.z h
      simp [scale_vector, zeroPoint] at hx hy hz
      ext <;> simp [zeroPoint] <;> tauto
  · rintro (h | h) <;> subst h <;> ext <;> simp [scale_vector, zeroPoint]

theorem dot_vectors_scale_left (u v : Point) (c : ℚ) :
    dot_vectors (scale_vector u c) v = c * dot_vectors u v := by
  simp [dot_vectors, scale_vector]; ring

theorem dot_vectors_scale_right (u v : Point) (c : ℚ) :
    dot_vectors u (scale_vector v c) = c * dot_vectors u v := by
  simp [dot_vectors, scale_vector]; ring

theorem scale_vector_scale (v : Point) (a b : ℚ) :
    scale_vector (scale_vector v a) b = scale_vector v (b * a) := by
  ext <;> simp [scale_vector] <;> ring

theorem dot_vectors_self_pos (v : Point) (h : v ≠ zeroPoint) : 0 < dot_vectors v v := by
  have hne : v.x ≠ 0 ∨ v.y ≠ 0 ∨ v.z ≠ 0 := by
    by_contra hc
    push_neg at hc
    exact h (by ext <;> simp [zeroPoint, hc.1, hc.2.1, hc.2.2])
  have hx := mul_self_nonneg v.x
  have hy := mul_self_nonneg v.y
  have hz := mul_self_nonneg v.z
  rcases hne with hv | hv | hv
  · have : 0 < v.x * v.x := mul_self_pos.mpr hv
    simp only [dot_vectors]; linarith
  · have : 0 < v.y * v.y := mul_self_pos.mpr hv
    simp only [dot_vectors]; linarith
  · have : 0 < v.z * v.z := mul_self_pos.mpr hv
    simp only [dot_vectors]; linarith

/-- The dot product of a difference with a normal splits over a common
base point. -/
theorem dot_vectors_sub_split (p q r w : Point) :
    dot_vectors (subtract_vectors p q) w =
      dot_vectors (subtract_vectors p r) w - dot_vectors (subtract_vectors q r) w := by
  simp [dot_vectors, subtract_vectors]; ring

/-- Two vectors orthogonal to a nonzero vector have a cross product that is
a scalar multiple of it. -/
theorem cross_perp_scale (u v n : Point) (hn : n ≠ zeroPoint)
    (hu : dot_vectors u n = 0) (hv : dot_vectors v n = 0) :
    ∃ c : ℚ, cross_vectors u v = scale_vector n c := by
  have hne : n.x ≠ 0 ∨ n.y ≠ 0 ∨ n.z ≠ 0 := by
    by_contra hc
    push_neg at hc
    exact hn (by ext <;> simp [zeroPoint, hc.1, hc.2.1, hc.2.2])
  simp only [dot_vectors] at hu hv
  rcases hne with h0 | h0 | h0
  · refine ⟨(u.y * v.z - u.z * v.y) / n.x, ?_⟩
    ext
    · simp only [cross_vectors, scale_vector]
      rw [div_mul_cancel₀ _ h0]
    · simp only [cross_vectors, scale_vector]
      rw [div_mul_eq_mul_div, eq_div_iff h0]
      linear_combination u.z * hv - v.z * hu
    · simp only [cross_vectors, scale_vector]
      rw [div_mul_eq_mul_div, eq_div_iff h0]
      linear_combination v.y * hu - u.y * hv
  · refine ⟨(u.z * v.x - u.x * v.z) / n.y, ?_⟩
    ext
    · simp only [cross_vectors, scale_vector]
      rw [div_mul_eq_mul_div, eq_div_iff h0]
      linear_combination v.z * hu - u.z * hv
    · simp only [cross_vectors, scale_vector]
      rw [div_mul_cancel₀ _ h0]
    · simp only [cross_vectors, scale_vector]
      rw [div_mul_eq_mul_div, eq_div_iff h0]
      linear_combination u.x * hv - v.x * hu
  · refine ⟨(u.x * v.y - u.y * v.x) / n.z, ?_⟩
    ext
    · simp only [cross_vectors, scale_vector]
      rw [div_mul_eq_mul_div, eq_div_iff h0]
      linear_combination u.y * hv - v.y * hu
    · simp only [cross_vectors, scale_vector]
      rw [div_mul_eq_mul_div, eq_div_iff h0]
      linear_combination v.x * hu - u.x * hv
    · simp only [cross_vectors, scale_vector]
      rw [div_mul_cancel₀ _ h0]

/- ------------------------------------------------------------------ -/
/- Mesh update lemmas                                                 -/
/- ------------------------------------------------------------------ -/

theorem lookupKey_map_set_ne {j k : Nat} (p : Point) (l : List (Nat × Point)) (h : j ≠ k) :
    lookupKey j (l.map fun kv => if kv.1 = k then (kv.1, p) else kv) = lookupKey j l := by
  induction l with
  | nil => rfl
  | cons kv t ih =>
    obtain ⟨a, b⟩ := kv
    have h1 : (if a = k then ((a : Nat), p) else (a, b)).1 = a := by split <;> rfl
    by_cases haj : a = j
    · subst haj
      have hak : a ≠ k := h
      simp [lookupKey, hak]
    · simp [lookupKey, h1, haj, ih]

theorem lookupKey_map_set_self (k : Nat) (p : Point) (l : List (Nat × Point)) :
    lookupKey k (l.map fun kv => if kv.1 = k then (kv.1, p) else kv) =
      (lookupKey k l).map fun _ => p := by
  induction l with
  | nil => rfl
  | cons kv t ih =>
    obtain ⟨a, b⟩ := kv
    by_cases hak : a = k
    · subst hak
      simp [lookupKey]
    · simp [lookupKey, hak, ih]

theorem vertexPos_set_ne (m : Mesh) {j k : Nat} (p : Point) (h : j ≠ k) :
    (m.setVertexPos k p).vertexPos j = m.vertexPos j := by
  simp [Mesh.vertexPos, Mesh.setVertexPos, lookupKey_map_set_ne p m.vertices h]

theorem vertexPos_set_self (m : Mesh) (k : Nat) (p : Point) :
    (m.setVertexPos k p).vertexPos k =
      if (lookupKey k m.vertices).isSome then p else m.vertexPos k := by
  cases h : lookupKey k m.vertices <;>
    simp [Mesh.vertexPos, Mesh.setVertexPos, lookupKey_map_set_self, h]

/- ------------------------------------------------------------------ -/
/- Fixed vertices are never written (C2 machinery)                    -/
/- ------------------------------------------------------------------ -/

theorem applyCentroids_fixed_vertexPos (fixed : List Nat) (contribs : List (Nat × Point))
    {key : Nat} (hk : key ∈ fixed) :
    ∀ (keys : List Nat) (m : Mesh),
      (carriedMesh (applyCentroids fixed contribs m keys)).vertexPos key = m.vertexPos key := by
  intro keys
  induction keys with
  | nil => intro m; rfl
  | cons k2 t ih =>
    intro m
    by_cases h2 : k2 ∈ fixed
    · simp only [applyCentroids, if_pos h2]
      exact ih m
    · simp only [applyCentroids, if_neg h2]
      cases hc : centroid_points (keyXYZ contribs k2) with
      | error e => rfl
      | ok c =>
        have hne : key ≠ k2 := fun hc2 => h2 (hc2 ▸ hk)
        rw [ih (m.setVertexPos k2 c), vertexPos_set_ne m c hne]

theorem planarizeIteration_fixed_vertexPos (fixed : List Nat) {key : Nat} (hk : key ∈ fixed)
    (m : Mesh) :
    (carriedMesh (planarizeIteration fixed m)).vertexPos key = m.vertexPos key := by
  unfold planarizeIteration
  cases h : collectContributions m m.faces with
  | error e => rfl
  | ok contribs => exact applyCentroids_fixed_vertexPos fixed contribs hk _ m

theorem planarizeLoop_fixed_vertexPos (fixed : List Nat) (invoke : Bool) {key : Nat}
    (hk : key ∈ fixed) :
    ∀ (n k : Nat) (m : Mesh) (tr : List Nat),
      ((planarizeLoop fixed invoke k n m tr).mesh).vertexPos key = m.vertexPos key := by
  intro n
  induction n with
  | zero => intro k m tr; rfl
  | succ n ih =>
    intro k m tr
    have hiter := planarizeIteration_fixed_vertexPos fixed hk m
    cases hit : planarizeIteration fixed m with
    | error em =>
      obtain ⟨e, m1⟩ := em
      rw [hit] at hiter
      simp only [planarizeLoop, hit]
      exact hiter
    | ok m1 =>
      rw [hit] at hiter
      simp only [planarizeLoop, hit]
      rw [ih (k + 1) m1 _]
      exact hiter

/-- C2: every vertex key in the fixed set has exactly the same position after
`mesh_planarize` returns (also at the moment an error is raised) as it had
before the call: no iteration ever updates a fixed vertex. -/
theorem mesh_planarize_fixed_invariant (m : Mesh) (fixed : List Nat) (kmax : ℤ) (d : ℚ)
    (cb : PyCallback) (args : List ℚ) (key : Nat) (hk : key ∈ fixed) :
    ((mesh_planarize m fixed kmax d cb args).mesh).vertexPos key = m.vertexPos key := by
  unfold mesh_planarize
  by_cases h : (cbTruthy cb && !cbCallable cb) = true
  · simp only [if_pos h]
  · simp only [if_neg h]
    exact planarizeLoop_fixed_vertexPos fixed (cbTruthy cb) hk kmax.toNat 0 m []

/-- Witness for C2 at a concrete mesh: vertex 0 is fixed and keeps its
position through five iterations. -/
theorem mesh_planarize_fixed_invariant_witness :
    (0 : Nat) ∈ [0] ∧
      ((mesh_planarize oneFixedMesh [0] 5 1 none []).mesh).vertexPos 0 =
        oneFixedMesh.vertexPos 0 :=
  ⟨by decide, mesh_planarize_fixed_invariant oneFixedMesh [0] 5 1 none [] 0 (by decide)⟩

/-- C4: the damping factor `d` is accepted but never applied: two runs of
`mesh_planarize` differing only in `d` return identical results (final
positions, callback trace and error state). -/
theorem mesh_planarize_damping_unused (m : Mesh) (fixed : List Nat) (kmax : ℤ)
    (d1 d2 : ℚ) (cb : PyCallback) (args : List ℚ) :
    mesh_planarize m fixed kmax d1 cb args = mesh_planarize m fixed kmax d2 cb args := rfl

/-- C1: a mesh with a single vertex that is incident to no face and not
fixed.  `mesh_planarize` reaches the accumulation pass with an empty
contribution list for that vertex and the centroid computation raises
`EmptyInputError` (the source has no guard), contrary to the spec's
requirement that such vertices be left untouched without crashing. -/
theorem mesh_planarize_isolated_vertex_crash :
    mesh_planarize isolatedVertexMesh [] 1 1 none [] =
      ⟨isolatedVertexMesh, [], some .emptyInput⟩ := by decide

/-- C10: for `kmax <= 0` the loop `for k in range(kmax)` runs zero times:
provided the callback validity check passes, the call returns normally with
the mesh untouched, an empty callback trace and no error. -/
theorem mesh_planarize_nonpositive_kmax (m : Mesh) (fixed : List Nat) (kmax : ℤ) (d : ℚ)
    (cb : PyCallback) (args : List ℚ) (h1 : kmax ≤ 0)
    (h2 : (cbTruthy cb && !cbCallable cb) = false) :
    mesh_planarize m fixed kmax d cb args = ⟨m, [], none⟩ := by
  unfold mesh_planarize
  rw [h2, Int.toNat_of_nonpos h1]
  rfl

/-- Witness for C10: a negative iteration budget returns the mesh unchanged. -/
theorem mesh_planarize_nonpositive_kmax_witness :
    (-3 : ℤ) ≤ 0 ∧ mesh_planarize oneFixedMesh [] (-3) 1 none [] = ⟨oneFixedMesh, [], none⟩ :=
  ⟨by decide, mesh_planarize_nonpositive_kmax oneFixedMesh [] (-3) 1 none [] (by decide) rfl⟩

/- ------------------------------------------------------------------ -/
/- Callback handling (C7, C8, C9)                                     -/
/- ------------------------------------------------------------------ -/

/-- C8 counterexample: `0`, `""`, `False` and the like are non-null and not
invocable, yet falsy, so `if callback:` skips the validity check entirely:
the call completes with no `InvalidCallbackError` (and never invokes the
argument), refuting the claim that every non-null non-invocable callback
argument raises. -/
theorem mesh_planarize_falsy_noncallable_no_error :
    mesh_planarize oneFixedMesh [0] 1 1 (some ⟨false, false⟩) [] =
      ⟨oneFixedMesh, [], none⟩ ∧ (some ⟨false, false⟩ : PyCallback) ≠ none := by
  exact ⟨by decide, by decide⟩

/-- C8 (amended): a truthy, non-callable callback argument makes
`mesh_planarize` raise `InvalidCallbackError` before the iteration loop:
the returned mesh is exactly the input, no callback invocation is recorded. -/
theorem mesh_planarize_invalid_callback (m : Mesh) (fixed : List Nat) (kmax : ℤ) (d : ℚ)
    (cb : PyCallback) (args : List ℚ) (h1 : cbTruthy cb = true) (h2 : cbCallable cb = false) :
    mesh_planarize m fixed kmax d cb args = ⟨m, [], some .invalidCallback⟩ := by
  unfold mesh_planarize
  rw [h1, h2]
  rfl

/-- Witness for the amended C8 at a concrete truthy non-callable argument. -/
theorem mesh_planarize_invalid_callback_witness :
    cbTruthy (some ⟨true, false⟩) = true ∧
      mesh_planarize oneFixedMesh [] 7 1 (some ⟨true, false⟩) [] =
        ⟨oneFixedMesh, [], some .invalidCallback⟩ :=
  ⟨rfl, mesh_planarize_invalid_callback oneFixedMesh [] 7 1 (some ⟨true, false⟩) [] rfl rfl⟩

/-- C9: with a callable callback supplied, `mesh_planarize_shapeop` raises
nothing and never invokes the callback (empty trace); it hands the external
solver exactly the mesh, the fixed vertices and `kmax`, and the result does
not depend on `d` or `callback_args` (they do not occur on the right-hand
side). -/
theorem mesh_planarize_shapeop_forwards (solver : Mesh → List Nat → ℤ → Mesh) (m : Mesh)
    (fixed : List Nat) (kmax : ℤ) (d : ℚ) (cb : PyCallback) (args : List ℚ)
    (h : cbCallable cb = true) :
    mesh_planarize_shapeop solver m fixed kmax d cb args = .ok (solver m fixed kmax, []) := by
  unfold mesh_planarize_shapeop
  rw [h]
  simp

/-- Witness for C9 with an identity external solver. -/
theorem mesh_planarize_shapeop_forwards_witness :
    cbCallable (some ⟨true, true⟩) = true ∧
      mesh_planarize_shapeop (fun mm _ _ => mm) oneFixedMesh [0] 5 (1 / 10)
          (some ⟨true, true⟩) [] = .ok (oneFixedMesh, []) :=
  ⟨rfl, mesh_planarize_shapeop_forwards (fun mm _ _ => mm) oneFixedMesh [0] 5 (1 / 10)
    (some ⟨true, true⟩) [] rfl⟩

/-- C7 counterexample: a callable but falsy callback object (a Python value
with `__call__` but whose truth value is false) is supplied with `kmax = 1`,
the call completes without error, and the callback is invoked zero times
instead of once: `if callback:` tests truthiness, not callability. -/
theorem mesh_planarize_falsy_callable_not_invoked :
    mesh_planarize oneFixedMesh [0] 1 1 (some ⟨false, true⟩) [] =
      ⟨oneFixedMesh, [], none⟩ ∧ ([] : List Nat) ≠ List.range (1 : ℤ).toNat := by
  exact ⟨by decide, by decide⟩

theorem planarizeLoop_trace_of_no_error (fixed : List Nat) :
    ∀ (n k : Nat) (m : Mesh) (tr : List Nat),
      (planarizeLoop fixed true k n m tr).error = none →
      (planarizeLoop fixed true k n m tr).trace = tr ++ List.range' k n := by
  intro n
  induction n with
  | zero => intro k m tr _; simp [planarizeLoop, List.range']
  | succ n ih =>
    intro k m tr h
    cases hit : planarizeIteration fixed m with
    | error em =>
      obtain ⟨e, m1⟩ := em
      simp only [planarizeLoop, hit] at h
      exact absurd h (by simp)
    | ok m1 =>
      simp only [planarizeLoop, hit, if_true] at h ⊢
      rw [ih (k + 1) m1 (tr ++ [k]) h]
      simp [List.range'_succ]

/-- C7 (amended): when the callback argument is truthy and callable and the
call completes without raising, the callback is invoked exactly once per
iteration, after that iteration's position update, with the iteration
indices `0, 1, ..., kmax-1` in increasing order. -/
theorem mesh_planarize_callback_trace (m : Mesh) (fixed : List Nat) (kmax : ℤ) (d : ℚ)
    (cb : PyCallback) (args : List ℚ) (h1 : cbTruthy cb = true) (h2 : cbCallable cb = true)
    (h3 : (mesh_planarize m fixed kmax d cb args).error = none) :
    (mesh_planarize m fixed kmax d cb args).trace = List.range kmax.toNat := by
  unfold mesh_planarize at h3 ⊢
  rw [h1, h2] at h3 ⊢
  simp only [Bool.not_true, Bool.and_false, Bool.false_eq_true, if_false] at h3 ⊢
  rw [planarizeLoop_trace_of_no_error fixed kmax.toNat 0 m [] h3]
  simp [List.range_eq_range']

/-- Witness for the amended C7: two iterations on a fully fixed mesh invoke
the callback at indices 0 and 1. -/
theorem mesh_planarize_callback_trace_witness :
    (mesh_planarize oneFixedMesh [0] 2 1 (some ⟨true, true⟩) []).error = none ∧
      (mesh_planarize oneFixedMesh [0] 2 1 (some ⟨true, true⟩) []).trace =
        List.range (2 : ℤ).toNat :=
  ⟨by decide, mesh_planarize_callback_trace oneFixedMesh [0] 2 1 (some ⟨true, true⟩) []
    rfl rfl (by decide)⟩

/- ------------------------------------------------------------------ -/
/- Best-fit planes of coplanar points (C3, C6 machinery)              -/
/- ------------------------------------------------------------------ -/

theorem mem_pairsFrom (l : List Point) :
    ∀ (as2 : List Point) (ab : Point × Point), ab ∈ pairsFrom l as2 → ab.1 ∈ as2 ∧ ab.2 ∈ l := by
  intro as2
  induction as2 with
  | nil => intro ab h; simp [pairsFrom] at h
  | cons a t ih =>
    intro ab h
    simp only [pairsFrom] at h
    rcases List.mem_append.mp h with h1 | h1
    · obtain ⟨b, hb, rfl⟩ := List.mem_map.mp h1
      exact ⟨List.mem_cons_self a t, hb⟩
    · obtain ⟨h2, h3⟩ := ih ab h1
      exact ⟨List.mem_cons_of_mem a h2, h3⟩

theorem firstNormal_eq_some (p0 : Point) :
    ∀ (l : List (Point × Point)) (n : Point), firstNormal p0 l = some n →
      n ≠ zeroPoint ∧ ∃ ab ∈ l,
        n = cross_vectors (subtract_vectors ab.1 p0) (subtract_vectors ab.2 p0) := by
  intro l
  induction l with
  | nil => intro n h; simp [firstNormal] at h
  | cons ab t ih =>
    intro n h
    simp only [firstNormal] at h
    by_cases hz :
        cross_vectors (subtract_vectors ab.1 p0) (subtract_vectors ab.2 p0) = zeroPoint
    · rw [if_pos hz] at h
      obtain ⟨hn, ab2, hmem, heq⟩ := ih n h
      exact ⟨hn, ab2, List.mem_cons_of_mem ab hmem, heq⟩
    · rw [if_neg hz] at h
      cases h
      exact ⟨hz, ab, List.mem_cons_self ab t, rfl⟩

theorem bestfit_ok_elim (points : List Point) (base n : Point)
    (h : bestfit_plane_from_points points = .ok (base, n)) :
    base ∈ points ∧ n ≠ zeroPoint ∧
      ∃ a b, a ∈ points ∧ b ∈ points ∧
        n = cross_vectors (subtract_vectors a base) (subtract_vectors b base) := by
  cases points with
  | nil => simp [bestfit_plane_from_points] at h
  | cons p0 rest =>
    rw [bestfit_plane_from_points] at h
    by_cases hlen : (p0 :: rest).length < 3
    · rw [if_pos hlen] at h; exact absurd h (by simp)
    · rw [if_neg hlen] at h
      cases hfn : firstNormal p0 (pairsFrom rest rest) with
      | none => rw [hfn] at h; exact absurd h (by simp)
      | some n2 =>
        rw [hfn] at h
        injection h with h2
        rw [Prod.mk.injEq] at h2
        obtain ⟨h3, h4⟩ := h2
        subst h3
        subst h4
        obtain ⟨hn, ab, hmem, heq⟩ := firstNormal_eq_some p0 _ n2 hfn
        obtain ⟨h5, h6⟩ := mem_pairsFrom rest _ ab hmem
        exact ⟨List.mem_cons_self p0 rest, hn, ab.1, ab.2,
          List.mem_cons_of_mem p0 h5, List.mem_cons_of_mem p0 h6, heq⟩

/-- On exactly coplanar input, the plane the best-fit computation returns
contains every input point. -/
theorem bestfit_plane_contains (points : List Point) (base n : Point)
    (hco : CoplanarPts points) (h : bestfit_plane_from_points points = .ok (base, n)) :
    ∀ p ∈ points, dot_vectors (subtract_vectors p base) n = 0 := by
  obtain ⟨b0, n0, hn0, hall⟩ := hco
  obtain ⟨hbase, hn, a, b, ha, hb, hcr⟩ := bestfit_ok_elim points base n h
  have hperp : ∀ q ∈ points, dot_vectors (subtract_vectors q base) n0 = 0 := by
    intro q hq
    rw [dot_vectors_sub_split q base b0 n0, hall q hq, hall base hbase]
    ring
  obtain ⟨c, hc⟩ := cross_perp_scale _ _ n0 hn0 (hperp a ha) (hperp b hb)
  intro p hp
  rw [hcr, hc, dot_vectors_scale_right, hperp p hp]
  ring

/-- Projecting a point that already lies on the plane is the identity. -/
theorem project_point_plane_fixed (p : Point) (plane : Point × Point)
    (h : dot_vectors (subtract_vectors p plane.1) plane.2 = 0) :
    project_point_plane p plane = p := by
  simp only [project_point_plane]
  rw [h, zero_div]
  ext <;> simp [subtract_vectors, scale_vector]

theorem list_sum_const_map (f : Point → ℚ) (c : Point) :
    ∀ (ps : List Point), (∀ p ∈ ps, p = c) → (ps.map f).sum = ps.length * f c := by
  intro ps
  induction ps with
  | nil => intro _; simp
  | cons q t ih =>
    intro h
    have hq : q = c := h q (List.mem_cons_self q t)
    have ht : ∀ p ∈ t, p = c := fun p hp => h p (List.mem_cons_of_mem q hp)
    simp [hq, ih ht]
    ring

/-- The centroid of a nonempty list of identical points is that point. -/
theorem centroid_points_const (ps : List Point) (c : Point) (hne : ps ≠ [])
    (h : ∀ p ∈ ps, p = c) : centroid_points ps = .ok c := by
  cases ps with
  | nil => exact absurd rfl hne
  | cons q t =>
    have hlen : (((q :: t).length : ℚ)) ≠ 0 := Nat.cast_ne_zero.mpr (by simp)
    have hx := list_sum_const_map Point.x c (q :: t) h
    have hy := list_sum_const_map Point.y c (q :: t) h
    have hz := list_sum_const_map Point.z c (q :: t) h
    simp only [centroid_points, hx, hy, hz]
    rw [Except.ok.injEq]
    ext <;> dsimp only <;> rw [mul_div_cancel_left₀ _ hlen]

theorem snd_of_mem_zip_map (f : Nat → Point) :
    ∀ (l : List Nat) (kp : Nat × Point), kp ∈ l.zip (l.map f) → kp.2 = f kp.1 := by
  intro l
  induction l with
  | nil => intro kp h; simp at h
  | cons a t ih =>
    intro kp h
    simp only [List.map_cons, List.zip_cons_cons] at h
    rcases List.mem_cons.mp h with h1 | h1
    · subst h1; rfl
    · exact ih kp h1

/-- On a coplanar face, every recorded contribution is the current position
of its vertex. -/
theorem faceContributions_ok_mem (m : Mesh) (fkey : Nat) (cs : List (Nat × Point))
    (hco : CoplanarPts (m.face_coordinates fkey))
    (h : faceContributions m fkey = .ok cs) :
    ∀ kp ∈ cs, kp.2 = m.vertexPos kp.1 := by
  unfold faceContributions at h
  split at h
  · exact absurd h (by simp)
  · rename_i plane hbf
    split at h
    · injection h with h2
      have hproj : project_points_plane (m.face_coordinates fkey) plane =
          m.face_coordinates fkey := by
        unfold project_points_plane
        conv_rhs => rw [← List.map_id (m.face_coordinates fkey)]
        refine List.map_congr_left ?_
        intro p hp
        exact project_point_plane_fixed p plane
          (bestfit_plane_contains _ plane.1 plane.2 hco hbf p hp)
      rw [hproj] at h2
      subst h2
      intro kp hkp
      exact snd_of_mem_zip_map m.vertexPos (m.face_vertices fkey) kp hkp
    · exact absurd h (by simp)

theorem collectContributions_ok_mem (m : Mesh)
    (hfaces : ∀ f ∈ m.faces, CoplanarPts (m.face_coordinates f.1)) :
    ∀ (fs : List (Nat × List Nat)), (∀ f ∈ fs, f ∈ m.faces) →
      ∀ (contribs : List (Nat × Point)), collectContributions m fs = .ok contribs →
      ∀ kp ∈ contribs, kp.2 = m.vertexPos kp.1 := by
  intro fs
  induction fs with
  | nil =>
    intro _ contribs h kp hkp
    injection h with h2
    subst h2
    simp at hkp
  | cons f t ih =>
    intro hsub contribs h kp hkp
    rw [collectContributions] at h
    cases hfc : faceContributions m f.1 with
    | error e => rw [hfc] at h; exact absurd h (by simp)
    | ok cs =>
      rw [hfc] at h
      cases hct : collectContributions m t with
      | error e => rw [hct] at h; exact absurd h (by simp)
      | ok rest =>
        rw [hct] at h
        injection h with h2
        subst h2
        rcases List.mem_append.mp hkp with h3 | h3
        · exact faceContributions_ok_mem m f.1 cs
            (hfaces f (hsub f (List.mem_cons_self f t))) hfc kp h3
        · exact ih (fun g hg => hsub g (List.mem_cons_of_mem f hg)) rest hct kp h3

theorem mem_keyXYZ (contribs : List (Nat × Point)) (key : Nat) (q : Point)
    (h : q ∈ keyXYZ contribs key) : ∃ kp ∈ contribs, kp.1 = key ∧ kp.2 = q := by
  unfold keyXYZ at h
  obtain ⟨kp, hkp, rfl⟩ := List.mem_map.mp h
  obtain ⟨h1, h2⟩ := List.mem_filter.mp hkp
  exact ⟨kp, h1, by simpa using h2, rfl⟩

/-- When every contribution sits at its vertex's current position, the
accumulation pass leaves every vertex position unchanged (also when it
raises mid-pass). -/
theorem applyCentroids_preserves (fixed : List Nat) (contribs : List (Nat × Point))
    (m0 : Mesh) (hc : ∀ kp ∈ contribs, kp.2 = m0.vertexPos kp.1) :
    ∀ (keys : List Nat) (m : Mesh), (∀ j, m.vertexPos j = m0.vertexPos j) →
      ∀ j, (carriedMesh (applyCentroids fixed contribs m keys)).vertexPos j =
        m0.vertexPos j := by
  intro keys
  induction keys with
  | nil => intro m hm j; exact hm j
  | cons key t ih =>
    intro m hm j
    by_cases hf : key ∈ fixed
    · simp only [applyCentroids, if_pos hf]
      exact ih m hm j
    · simp only [applyCentroids, if_neg hf]
      cases hcen : centroid_points (keyXYZ contribs key) with
      | error e => exact hm j
      | ok c =>
        have hkx : ∀ q ∈ keyXYZ contribs key, q = m0.vertexPos key := by
          intro q hq
          obtain ⟨kp, hkp, h1, h2⟩ := mem_keyXYZ contribs key q hq
          rw [← h2, hc kp hkp, h1]
        have hnonempty : keyXYZ contribs key ≠ [] := by
          intro hemp
          rw [hemp] at hcen
          exact absurd hcen (by simp [centroid_points])
        have hcc : c = m0.vertexPos key := by
          have h4 := centroid_points_const _ _ hnonempty hkx
          rw [h4] at hcen
          injection hcen with h3
          exact h3.symm
        refine ih (m.setVertexPos key c) ?_ j
        intro j2
        by_cases hj2 : j2 = key
        · subst hj2
          rw [vertexPos_set_self]
          split
          · exact hcc
          · exact hm j2
        · rw [vertexPos_set_ne m c hj2]
          exact hm j2

theorem planarizeIteration_planar_preserves (fixed : List Nat) (m : Mesh)
    (hfaces : ∀ f ∈ m.faces, CoplanarPts (m.face_coordinates f.1)) :
    ∀ j, (carriedMesh (planarizeIteration fixed m)).vertexPos j = m.vertexPos j := by
  intro j
  unfold planarizeIteration
  cases hcol : collectContributions m m.faces with
  | error e => rfl
  | ok contribs =>
    have hc := collectContributions_ok_mem m hfaces m.faces (fun f hf => hf) contribs hcol
    exact applyCentroids_preserves fixed contribs m hc _ m (fun _ => rfl) j

/-- C3: on a mesh whose every face has exactly coplanar corner positions,
with an empty fixed set, one iteration of `mesh_planarize` (`kmax = 1`)
leaves every vertex position unchanged: projecting already-planar corners
onto their own best-fit plane returns them unchanged, and the centroid of
the identical contributions reproduces the original position. -/
theorem mesh_planarize_planar_identity (m : Mesh) (d : ℚ) (cb : PyCallback) (args : List ℚ)
    (hfaces : ∀ f ∈ m.faces, CoplanarPts (m.face_coordinates f.1)) :
    ∀ key, ((mesh_planarize m [] 1 d cb args).mesh).vertexPos key = m.vertexPos key := by
  intro key
  unfold mesh_planarize
  by_cases h : (cbTruthy cb && !cbCallable cb) = true
  · rw [if_pos h]
  · rw [if_neg h]
    show ((planarizeLoop [] (cbTruthy cb) 0 1 m []).mesh).vertexPos key = _
    have hiter := planarizeIteration_planar_preserves [] m hfaces key
    cases hit : planarizeIteration [] m with
    | error em =>
      obtain ⟨e, m1⟩ := em
      rw [hit] at hiter
      simp only [planarizeLoop, hit]
      exact hiter
    | ok m1 =>
      rw [hit] at hiter
      simp only [planarizeLoop, hit]
      exact hiter

/-- Witness for C3: one planarisation iteration leaves the planar unit
square untouched. -/
theorem mesh_planarize_planar_identity_witness :
    (∀ f ∈ squareMesh.faces, CoplanarPts (squareMesh.face_coordinates f.1)) ∧
      ∀ key, ((mesh_planarize squareMesh [] 1 1 none []).mesh).vertexPos key =
        squareMesh.vertexPos key := by
  have hco : ∀ f ∈ squareMesh.faces, CoplanarPts (squareMesh.face_coordinates f.1) := by
    intro f hf
    have hf0 : f = (0, [0, 1, 2, 3]) := by simpa [squareMesh] using hf
    subst hf0
    refine ⟨⟨0, 0, 0⟩, ⟨0, 0, 1⟩, ?_, ?_⟩
    · intro hz
      exact absurd (congrArg Point.z hz) (by norm_num [zeroPoint])
    · intro p hp
      have hcoords : squareMesh.face_coordinates 0 =
          [⟨0, 0, 0⟩, ⟨1, 0, 0⟩, ⟨1, 1, 0⟩, ⟨0, 1, 0⟩] := rfl
      rw [hcoords] at hp
      fin_cases hp <;> norm_num [dot_vectors, subtract_vectors]
  exact ⟨hco, fun key => mesh_planarize_planar_identity squareMesh 1 none [] hco key⟩

/- ------------------------------------------------------------------ -/
/- The cyclic corner triples of a face (C5)                           -/
/- ------------------------------------------------------------------ -/

theorem window3_cons {α : Type _} (a b c : α) (r : List α) :
    window3 (a :: b :: c :: r) = (a, b, c) :: window3 (b :: c :: r) := rfl

theorem window3_length {α : Type _} : ∀ l : List α, (window3 l).length = l.length - 2 := by
  intro l
  induction l with
  | nil => rfl
  | cons a t ih =>
    cases t with
    | nil => rfl
    | cons b t2 =>
      cases t2 with
      | nil => rfl
      | cons c r =>
        rw [window3_cons, List.length_cons, ih]
        simp only [List.length_cons]
        omega

theorem window3_getD {α : Type _} (d : α) :
    ∀ (l : List α) (i : Nat), i < l.length - 2 →
      (window3 l).getD i (d, d, d) = (l.getD i d, l.getD (i + 1) d, l.getD (i + 2) d) := by
  intro l
  induction l with
  | nil => intro i h; exact absurd h (by simp)
  | cons a t ih =>
    cases t with
    | nil => intro i h; exact absurd h (by simp)
    | cons b t2 =>
      cases t2 with
      | nil => intro i h; exact absurd h (by simp)
      | cons c r =>
        intro i h
        cases i with
        | zero => rfl
        | succ j =>
          rw [window3_cons]
          simp only [List.getD_cons_succ]
          refine ih j ?_
          simp only [List.length_cons] at h ⊢
          omega

theorem getD_append_take_mod {α : Type _} (l : List α) (d : α) (h2 : 2 ≤ l.length)
    (j : Nat) (hj : j < l.length + 2) :
    (l ++ l.take 2).getD j d = l.getD (j % l.length) d := by
  by_cases h : j < l.length
  · rw [List.getD_append _ _ _ _ h, Nat.mod_eq_of_lt h]
  · push_neg at h
    rw [List.getD_append_right _ _ _ _ h]
    have hlt : j - l.length < 2 := by omega
    have hmin : (l.take 2).length = 2 := by
      simp [List.length_take]
      omega
    have htake : (l.take 2).getD (j - l.length) d = l.getD (j - l.length) d := by
      rw [List.getD_eq_getElem _ _ (by omega : j - l.length < (l.take 2).length),
        List.getElem_take, List.getD_eq_getElem _ _ (by omega)]
    rw [htake, Nat.mod_eq_sub_mod h, Nat.mod_eq_of_lt (by omega)]

/-- The window over `points + points[0:2]` is exactly the cyclic triple list
of the claim: one triple per corner with modular wrap-around. -/
theorem window3_cyclic (l : List Point) (h2 : 2 ≤ l.length) :
    window3 (l ++ l.take 2) =
      (List.range l.length).map fun i =>
        (l.getD i zeroPoint, l.getD ((i + 1) % l.length) zeroPoint,
         l.getD ((i + 2) % l.length) zeroPoint) := by
  have hlen1 : (l ++ l.take 2).length = l.length + 2 := by
    simp [List.length_take]
    omega
  apply List.ext_getElem
  · rw [window3_length, hlen1]
    simp
  · intro i h1 hR
    have hi : i < l.length := by
      rw [window3_length, hlen1] at h1
      omega
    rw [← List.getD_eq_getElem _ (zeroPoint, zeroPoint, zeroPoint) h1,
      ← List.getD_eq_getElem _ (zeroPoint, zeroPoint, zeroPoint) hR,
      window3_getD _ _ i (by rw [hlen1]; omega),
      getD_append_take_mod l zeroPoint h2 i (by omega),
      getD_append_take_mod l zeroPoint h2 (i + 1) (by omega),
      getD_append_take_mod l zeroPoint h2 (i + 2) (by omega),
      List.getD_eq_getElem _ _ hR, List.getElem_map, List.getElem_range,
      Nat.mod_eq_of_lt hi]

theorem mapExcept_map {α1 α2 β1 : Type _} (f : α1 → α2) (g : α2 → Except PlanErr β1) :
    ∀ l : List α1, mapExcept g (l.map f) = mapExcept (fun a => g (f a)) l := by
  intro l
  induction l with
  | nil => rfl
  | cons a t ih => simp only [List.map_cons, mapExcept, ih]

theorem mapExcept_congr {α1 β1 : Type _} (f g : α1 → Except PlanErr β1) :
    ∀ l : List α1, (∀ a ∈ l, f a = g a) → mapExcept f l = mapExcept g l := by
  intro l
  induction l with
  | nil => intro _; rfl
  | cons a t ih =>
    intro h
    simp only [mapExcept, h a (List.mem_cons_self a t),
      ih fun b hb => h b (List.mem_cons_of_mem a hb)]

theorem mapExcept_ok_of_forall {α1 β1 : Type _} (f : α1 → Except PlanErr β1) (g : α1 → β1) :
    ∀ l : List α1, (∀ a ∈ l, f a = .ok (g a)) → mapExcept f l = .ok (l.map g) := by
  intro l
  induction l with
  | nil => intro _; rfl
  | cons a t ih =>
    intro h
    simp only [mapExcept, h a (List.mem_cons_self a t),
      ih fun b hb => h b (List.mem_cons_of_mem a hb), List.map_cons]

/-- If the best-fit computation succeeds, the face had at least 3 corners. -/
theorem bestfit_ok_length (points : List Point) (plane : Point × Point)
    (hbf : bestfit_plane_from_points points = .ok plane) : 3 ≤ points.length := by
  cases points with
  | nil => simp [bestfit_plane_from_points] at hbf
  | cons p0 rest =>
    rw [bestfit_plane_from_points] at hbf
    by_cases hlen : (p0 :: rest).length < 3
    · rw [if_pos hlen] at hbf
      exact absurd hbf (by simp)
    · omega

/-- The per-face body of `mesh_flatness` equals the claim's modular-index
formulation. -/
theorem faceDev_eq_spec (points : List Point) : faceDev points = faceDevSpec points := by
  unfold faceDev faceDevSpec
  cases hbf : bestfit_plane_from_points points with
  | error e => rfl
  | ok plane =>
    dsimp only
    have h3 := bestfit_ok_length points plane hbf
    rw [window3_cyclic points (by omega), mapExcept_map]
    rw [mapExcept_congr _ _ (List.range points.length) ?_]
    intro i _
    dsimp only
    rcases lt_or_le 0 (dot_vectors
        (cross_vectors
          (subtract_vectors (points.getD i zeroPoint)
            (points.getD ((i + 1) % points.length) zeroPoint))
          (subtract_vectors (points.getD ((i + 2) % points.length) zeroPoint)
            (points.getD ((i + 1) % points.length) zeroPoint)))
        plane.2) with hd | hd
    · rw [if_pos hd, if_neg (not_le.mpr hd)]
    · rw [if_neg (not_lt.mpr hd), if_pos hd]

/-- C5: the per-face deviation of `mesh_flatness` is exactly the claim's
formulation: for a face with `n` corners it takes the `n` cyclic corner
triples (each corner the middle vertex of exactly one triple, the window
wrapping around), local normal `cross(a-b, c-b)`, the best-fit normal (not
the local normal) negated whenever `dot(n, normal) <= 0`, and the arithmetic
mean of the `n` angles; and the wrapped window indeed has exactly `n`
triples. -/
theorem mesh_flatness_cyclic_triples :
    (∀ m : Mesh, mesh_flatness m =
      mapExcept (fun f =>
        match faceDevSpec (m.face_coordinates f.1) with
        | .error e => .error e
        | .ok dev => .ok (f.1, dev)) m.faces) ∧
    ∀ points : List Point, 2 ≤ points.length →
      (window3 (points ++ points.take 2)).length = points.length := by
  constructor
  · intro m
    unfold mesh_flatness
    refine mapExcept_congr _ _ m.faces ?_
    intro f _
    rw [faceDev_eq_spec]
  · intro points h2
    rw [window3_length]
    simp only [List.length_append, List.length_take]
    omega

/-- Witness for C5 at the unit-square corner list: four corners, four
triples, and the two formulations agree. -/
theorem mesh_flatness_cyclic_triples_witness :
    mesh_flatness squareMesh =
      mapExcept (fun f =>
        match faceDevSpec (squareMesh.face_coordinates f.1) with
        | .error e => .error e
        | .ok dev => .ok (f.1, dev)) squareMesh.faces ∧
    (window3 (squareMesh.face_coordinates 0 ++ (squareMesh.face_coordinates 0).take 2)).length =
      (squareMesh.face_coordinates 0).length :=
  ⟨mesh_flatness_cyclic_triples.1 squareMesh,
   mesh_flatness_cyclic_triples.2 (squareMesh.face_coordinates 0) (by decide)⟩
theorem dot_vectors_cross_left (u v : Point) : dot_vectors u (cross_vectors u v) = 0 := by
  simp only [dot_vectors, cross_vectors]
  ring

theorem dot_vectors_cross_right (u v : Point) : dot_vectors v (cross_vectors u v) = 0 := by
  simp only [dot_vectors, cross_vectors]
  ring

/-- A nonzero multiple of the best-fit normal, run through the hemisphere
test and angle computation of the flatness metric, yields angle zero. -/
theorem angle_scale_self (N : Point) (c : ℚ) (hN : N ≠ zeroPoint) (hc : c ≠ 0) :
    (if dot_vectors (scale_vector N c) N > 0
      then angle_smallest_vectors (scale_vector N c) N
      else angle_smallest_vectors (scale_vector N c) (scale_vector N (-1))) = .ok 0 := by
  have hd : (0 : ℚ) < dot_vectors N N := dot_vectors_self_pos N hN
  have hdR : (0 : ℝ) < ((dot_vectors N N : ℚ) : ℝ) := by exact_mod_cast hd
  have hsc : scale_vector N c ≠ zeroPoint := by
    rw [Ne, scale_vector_eq_zero_iff]
    push_neg
    exact ⟨hc, hN⟩
  have e2 : dot_vectors (scale_vector N c) (scale_vector N c) = c ^ 2 * dot_vectors N N := by
    rw [dot_vectors_scale_left, dot_vectors_scale_right]
    ring
  rcases hc.lt_or_lt with hneg | hpos
  · have hcR : ((c : ℚ) : ℝ) < 0 := by exact_mod_cast hneg
    have hsneg : scale_vector N (-1) ≠ zeroPoint := by
      rw [Ne, scale_vector_eq_zero_iff]
      push_neg
      exact ⟨by norm_num, hN⟩
    have hdot : dot_vectors (scale_vector N c) N < 0 := by
      rw [dot_vectors_scale_left]
      exact mul_neg_of_neg_of_pos hneg hd
    rw [if_neg (not_lt.mpr hdot.le)]
    unfold angle_smallest_vectors
    rw [if_neg (by push_neg; exact ⟨hsc, hsneg⟩)]
    have e1 : dot_vectors (scale_vector N c) (scale_vector N (-1)) =
        -c * dot_vectors N N := by
      rw [dot_vectors_scale_left, dot_vectors_scale_right]
      ring
    have e3 : dot_vectors (scale_vector N (-1)) (scale_vector N (-1)) = dot_vectors N N := by
      rw [dot_vectors_scale_left, dot_vectors_scale_right]
      ring
    rw [e1, e2, e3]
    congr 1
    push_cast
    rw [Real.sqrt_mul (sq_nonneg _), Real.sqrt_sq_eq_abs, abs_of_neg hcR, mul_assoc,
      Real.mul_self_sqrt hdR.le]
    rw [div_self (ne_of_gt (mul_pos (neg_pos.mpr hcR) hdR))]
    exact Real.arccos_one
  · have hcR : (0 : ℝ) < ((c : ℚ) : ℝ) := by exact_mod_cast hpos
    have hdot : 0 < dot_vectors (scale_vector N c) N := by
      rw [dot_vectors_scale_left]
      exact mul_pos hpos hd
    rw [if_pos hdot]
    unfold angle_smallest_vectors
    rw [if_neg (by push_neg; exact ⟨hsc, hN⟩)]
    have e1 : dot_vectors (scale_vector N c) N = c * dot_vectors N N :=
      dot_vectors_scale_left N N c
    rw [e1, e2]
    congr 1
    push_cast
    rw [Real.sqrt_mul (sq_nonneg _), Real.sqrt_sq_eq_abs, abs_of_pos hcR, mul_assoc,
      Real.mul_self_sqrt hdR.le]
    rw [div_self (ne_of_gt (mul_pos hcR hdR))]
    exact Real.arccos_one

theorem mem_window3 {α : Type _} :
    ∀ (l : List α) (t : α × α × α), t ∈ window3 l → t.1 ∈ l ∧ t.2.1 ∈ l ∧ t.2.2 ∈ l := by
  intro l
  induction l with
  | nil => intro t h; simp [window3] at h
  | cons a tail ih =>
    cases tail with
    | nil => intro t h; simp [window3] at h
    | cons b t2 =>
      cases t2 with
      | nil => intro t h; simp [window3] at h
      | cons c r =>
        intro t h
        rw [window3_cons] at h
        rcases List.mem_cons.mp h with h1 | h1
        · subst h1
          refine ⟨List.mem_cons_self _ _, ?_, ?_⟩
          · exact List.mem_cons_of_mem a (List.mem_cons_self _ _)
          · exact List.mem_cons_of_mem a
              (List.mem_cons_of_mem b (List.mem_cons_self _ _))
        · obtain ⟨m1, m2, m3⟩ := ih t h1
          exact ⟨List.mem_cons_of_mem a m1, List.mem_cons_of_mem a m2,
            List.mem_cons_of_mem a m3⟩

/-- A face with exactly coplanar corners, a successful best-fit plane and no
degenerate corner triple has deviation exactly zero. -/
theorem faceDev_planar_zero (pts : List Point)
    (hco : CoplanarPts pts)
    (hok : ∃ plane, bestfit_plane_from_points pts = .ok plane)
    (htr : ∀ t ∈ window3 (pts ++ pts.take 2),
      cross_vectors (subtract_vectors t.1 t.2.1) (subtract_vectors t.2.2 t.2.1) ≠ zeroPoint) :
    faceDev pts = .ok 0 := by
  obtain ⟨plane, hbf⟩ := hok
  obtain ⟨b0, n0, hn0, hall⟩ := hco
  obtain ⟨hbase, hnz, a, b, ha, hb, hcr⟩ := bestfit_ok_elim pts plane.1 plane.2 hbf
  have hperp : ∀ p ∈ pts, ∀ q ∈ pts, dot_vectors (subtract_vectors p q) n0 = 0 := by
    intro p hp q hq
    rw [dot_vectors_sub_split p q b0 n0, hall p hp, hall q hq]
    ring
  obtain ⟨cN, hcN⟩ := cross_perp_scale _ _ n0 hn0
    (hperp a ha plane.1 hbase) (hperp b hb plane.1 hbase)
  have hNsc : plane.2 = scale_vector n0 cN := hcr.trans hcN
  have hcNne : cN ≠ 0 := by
    intro h0
    refine hnz ?_
    rw [hNsc, h0]
    ext <;> simp [scale_vector, zeroPoint]
  have hmem : ∀ t ∈ window3 (pts ++ pts.take 2), t.1 ∈ pts ∧ t.2.1 ∈ pts ∧ t.2.2 ∈ pts := by
    intro t ht
    obtain ⟨m1, m2, m3⟩ := mem_window3 _ t ht
    have hsub : ∀ x : Point, x ∈ pts ++ pts.take 2 → x ∈ pts := by
      intro x hx
      rcases List.mem_append.mp hx with hx | hx
      · exact hx
      · exact List.take_subset 2 pts hx
    exact ⟨hsub _ m1, hsub _ m2, hsub _ m3⟩
  have hmap : mapExcept (fun t =>
      let u := subtract_vectors t.1 t.2.1
      let v := subtract_vectors t.2.2 t.2.1
      let n := cross_vectors u v
      if dot_vectors n plane.2 > 0 then angle_smallest_vectors n plane.2
      else angle_smallest_vectors n (scale_vector plane.2 (-1)))
      (window3 (pts ++ pts.take 2)) =
      .ok ((window3 (pts ++ pts.take 2)).map fun _ => (0 : ℝ)) := by
    refine mapExcept_ok_of_forall _ _ _ ?_
    intro t ht
    obtain ⟨m1, m2, m3⟩ := hmem t ht
    obtain ⟨ci, hci⟩ := cross_perp_scale _ _ n0 hn0
      (hperp t.1 m1 t.2.1 m2) (hperp t.2.2 m3 t.2.1 m2)
    have hcine : ci ≠ 0 := by
      intro h0
      refine htr t ht ?_
      rw [hci, h0]
      ext <;> simp [scale_vector, zeroPoint]
    have hlocEq : cross_vectors (subtract_vectors t.1 t.2.1) (subtract_vectors t.2.2 t.2.1) =
        scale_vector plane.2 (ci / cN) := by
      rw [hNsc, scale_vector_scale, div_mul_cancel₀ _ hcNne, hci]
    show (if dot_vectors
        (cross_vectors (subtract_vectors t.1 t.2.1) (subtract_vectors t.2.2 t.2.1)) plane.2 > 0
      then angle_smallest_vectors
        (cross_vectors (subtract_vectors t.1 t.2.1) (subtract_vectors t.2.2 t.2.1)) plane.2
      else angle_smallest_vectors
        (cross_vectors (subtract_vectors t.1 t.2.1) (subtract_vectors t.2.2 t.2.1))
        (scale_vector plane.2 (-1))) = .ok 0
    rw [hlocEq]
    exact angle_scale_self plane.2 (ci / cN) hnz (div_ne_zero hcine hcNne)
  unfold faceDev
  rw [hbf]
  dsimp only
  rw [hmap]
  dsimp only
  rw [Except.ok.injEq, List.sum_eq_zero, zero_div]
  intro x hx
  obtain ⟨t, _, h2⟩ := List.mem_map.mp hx
  exact h2.symm

/-- Every face planar and non-degenerate: `mesh_flatness` returns zero for
every face. -/
theorem mesh_flatness_planar_core (m : Mesh)
    (h : ∀ f ∈ m.faces,
      CoplanarPts (m.face_coordinates f.1) ∧
      (∃ plane, bestfit_plane_from_points (m.face_coordinates f.1) = .ok plane) ∧
      ∀ t ∈ window3 (m.face_coordinates f.1 ++ (m.face_coordinates f.1).take 2),
        cross_vectors (subtract_vectors t.1 t.2.1) (subtract_vectors t.2.2 t.2.1) ≠
          zeroPoint) :
    mesh_flatness m = .ok (m.faces.map fun f => (f.1, (0 : ℝ))) := by
  unfold mesh_flatness
  refine mapExcept_ok_of_forall _ _ m.faces ?_
  intro f hf
  obtain ⟨h1, h2, h3⟩ := h f hf
  rw [faceDev_planar_zero _ h1 h2 h3]

theorem bestfit_triangle (a b c : Point)
    (hN : cross_vectors (subtract_vectors b a) (subtract_vectors c a) ≠ zeroPoint) :
    bestfit_plane_from_points [a, b, c] =
      .ok (a, cross_vectors (subtract_vectors b a) (subtract_vectors c a)) := by
  have hp : pairsFrom [b, c] [b, c] = [(b, b), (b, c), (c, b), (c, c)] := rfl
  rw [bestfit_plane_from_points, if_neg (by simp), hp]
  simp only [firstNormal, cross_vectors_self]
  rw [if_pos trivial, if_neg hN]

/-- C6 (amended): a mesh whose every face has exactly coplanar corners, a
successful best-fit plane and no corner triple with a zero local normal gets
`mesh_flatness` deviation exactly 0 on every face; in particular every
triangular face with non-collinear corners has deviation exactly 0. -/
theorem mesh_flatness_planar_faces_zero :
    (∀ m : Mesh, (∀ f ∈ m.faces,
      CoplanarPts (m.face_coordinates f.1) ∧
      (∃ plane, bestfit_plane_from_points (m.face_coordinates f.1) = .ok plane) ∧
      ∀ t ∈ window3 (m.face_coordinates f.1 ++ (m.face_coordinates f.1).take 2),
        cross_vectors (subtract_vectors t.1 t.2.1) (subtract_vectors t.2.2 t.2.1) ≠
          zeroPoint) →
      mesh_flatness m = .ok (m.faces.map fun f => (f.1, (0 : ℝ)))) ∧
    ∀ a b c : Point,
      cross_vectors (subtract_vectors b a) (subtract_vectors c a) ≠ zeroPoint →
      mesh_flatness (triangleMesh a b c) = .ok [(0, (0 : ℝ))] := by
  constructor
  · exact fun m h => mesh_flatness_planar_core m h
  · intro a b c hN
    have hcoords : (triangleMesh a b c).face_coordinates 0 = [a, b, c] := rfl
    have hhyp : ∀ f ∈ (triangleMesh a b c).faces,
        CoplanarPts ((triangleMesh a b c).face_coordinates f.1) ∧
        (∃ plane, bestfit_plane_from_points ((triangleMesh a b c).face_coordinates f.1) =
          .ok plane) ∧
        ∀ t ∈ window3 ((triangleMesh a b c).face_coordinates f.1 ++
            ((triangleMesh a b c).face_coordinates f.1).take 2),
          cross_vectors (subtract_vectors t.1 t.2.1) (subtract_vectors t.2.2 t.2.1) ≠
            zeroPoint := by
      intro f hf
      have hf0 : f = (0, [0, 1, 2]) := by simpa [triangleMesh] using hf
      subst hf0
      refine ⟨?_, ?_, ?_⟩
      · refine ⟨a, cross_vectors (subtract_vectors b a) (subtract_vectors c a), hN, ?_⟩
        intro p hp
        rw [hcoords] at hp
        rcases List.mem_cons.mp hp with h1 | hp
        · subst h1
          simp [dot_vectors, subtract_vectors]
        rcases List.mem_cons.mp hp with h1 | hp
        · subst h1
          exact dot_vectors_cross_left _ _
        rcases List.mem_cons.mp hp with h1 | hp
        · subst h1
          exact dot_vectors_cross_right _ _
        · simp at hp
      · exact ⟨(a, cross_vectors (subtract_vectors b a) (subtract_vectors c a)),
          bestfit_triangle a b c hN⟩
      · have hneg : scale_vector
            (cross_vectors (subtract_vectors b a) (subtract_vectors c a)) (-1) ≠
            zeroPoint := by
          rw [Ne, scale_vector_eq_zero_iff]
          push_neg
          exact ⟨by norm_num, hN⟩
        have hw : window3 ((triangleMesh a b c).face_coordinates 0 ++
            ((triangleMesh a b c).face_coordinates 0).take 2) =
            [(a, b, c), (b, c, a), (c, a, b)] := rfl
        intro t ht
        rw [hw] at ht
        rcases List.mem_cons.mp ht with h1 | ht
        · subst h1
          have hl : cross_vectors (subtract_vectors a b) (subtract_vectors c b) =
              scale_vector (cross_vectors (subtract_vectors b a) (subtract_vectors c a))
                (-1) := by
            ext <;> simp [cross_vectors, subtract_vectors, scale_vector] <;> ring
          show cross_vectors (subtract_vectors a b) (subtract_vectors c b) ≠ zeroPoint
          rw [hl]
          exact hneg
        rcases List.mem_cons.mp ht with h1 | ht
        · subst h1
          have hl : cross_vectors (subtract_vectors b c) (subtract_vectors a c) =
              scale_vector (cross_vectors (subtract_vectors b a) (subtract_vectors c a))
                (-1) := by
            ext <;> simp [cross_vectors, subtract_vectors, scale_vector] <;> ring
          show cross_vectors (subtract_vectors b c) (subtract_vectors a c) ≠ zeroPoint
          rw [hl]
          exact hneg
        rcases List.mem_cons.mp ht with h1 | ht
        · subst h1
          have hl : cross_vectors (subtract_vectors c a) (subtract_vectors b a) =
              scale_vector (cross_vectors (subtract_vectors b a) (subtract_vectors c a))
                (-1) := by
            ext <;> simp [cross_vectors, subtract_vectors, scale_vector] <;> ring
          show cross_vectors (subtract_vectors c a) (subtract_vectors b a) ≠ zeroPoint
          rw [hl]
          exact hneg
        · simp at ht
    exact mesh_flatness_planar_core (triangleMesh a b c) hhyp

/-- Witness for the amended C6: the planar unit square face has deviation
exactly 0 (hence within the claimed 1e-9 radians). -/
theorem mesh_flatness_planar_faces_zero_witness :
    (∀ f ∈ squareMesh.faces,
      CoplanarPts (squareMesh.face_coordinates f.1) ∧
      (∃ plane, bestfit_plane_from_points (squareMesh.face_coordinates f.1) = .ok plane) ∧
      ∀ t ∈ window3 (squareMesh.face_coordinates f.1 ++
          (squareMesh.face_coordinates f.1).take 2),
        cross_vectors (subtract_vectors t.1 t.2.1) (subtract_vectors t.2.2 t.2.1) ≠
          zeroPoint) ∧
    mesh_flatness squareMesh = .ok [(0, (0 : ℝ))] := by
  have hcoords : squareMesh.face_coordinates 0 =
      [⟨0, 0, 0⟩, ⟨1, 0, 0⟩, ⟨1, 1, 0⟩, ⟨0, 1, 0⟩] := rfl
  have hhyp : ∀ f ∈ squareMesh.faces,
      CoplanarPts (squareMesh.face_coordinates f.1) ∧
      (∃ plane, bestfit_plane_from_points (squareMesh.face_coordinates f.1) = .ok plane) ∧
      ∀ t ∈ window3 (squareMesh.face_coordinates f.1 ++
          (squareMesh.face_coordinates f.1).take 2),
        cross_vectors (subtract_vectors t.1 t.2.1) (subtract_vectors t.2.2 t.2.1) ≠
          zeroPoint := by
    intro f hf
    have hf0 : f = (0, [0, 1, 2, 3]) := by simpa [squareMesh] using hf
    subst hf0
    refine ⟨⟨⟨0, 0, 0⟩, ⟨0, 0, 1⟩, ?_, ?_⟩, ⟨(⟨0, 0, 0⟩, ⟨0, 0, 1⟩), ?_⟩, ?_⟩
    · intro hz
      exact absurd (congrArg Point.z hz) (by norm_num [zeroPoint])
    · intro p hp
      rw [hcoords] at hp
      fin_cases hp <;> norm_num [dot_vectors, subtract_vectors]
    · rw [hcoords]
      norm_num [bestfit_plane_from_points, pairsFrom, firstNormal, cross_vectors,
        subtract_vectors, zeroPoint, Point.ext_iff]
    · intro t ht
      rw [hcoords] at ht
      have hw : window3 (([⟨0, 0, 0⟩, ⟨1, 0, 0⟩, ⟨1, 1, 0⟩, ⟨0, 1, 0⟩] : List Point) ++
          ([⟨0, 0, 0⟩, ⟨1, 0, 0⟩, ⟨1, 1, 0⟩, ⟨0, 1, 0⟩] : List Point).take 2) =
          [(⟨0, 0, 0⟩, ⟨1, 0, 0⟩, ⟨1, 1, 0⟩), (⟨1, 0, 0⟩, ⟨1, 1, 0⟩, ⟨0, 1, 0⟩),
           (⟨1, 1, 0⟩, ⟨0, 1, 0⟩, ⟨0, 0, 0⟩), (⟨0, 1, 0⟩, ⟨0, 0, 0⟩, ⟨1, 0, 0⟩)] := rfl
    
      rw [hw] at ht
      fin_cases ht <;>
        norm_num [cross_vectors, subtract_vectors, zeroPoint, Point.ext_iff]
  refine ⟨hhyp, ?_⟩
  exact mesh_flatness_planar_faces_zero.1 squareMesh hhyp

/-- C6 counterexample: a valid quad face whose four corners are exactly
coplanar but whose first three corners are collinear: the first corner
triple has a zero local normal and the angle computation fails with the
zero-length-vector error (the Python implementation divides by zero), so
`mesh_flatness` does not return a deviation of 0 for this coplanar face. -/
theorem mesh_flatness_coplanar_not_zero :
    CoplanarPts (collinearQuadMesh.face_coordinates 0) ∧
      mesh_flatness collinearQuadMesh = .error .zeroLengthVector := by
  have hcoords : collinearQuadMesh.face_coordinates 0 =
      [⟨0, 0, 0⟩, ⟨1, 0, 0⟩, ⟨2, 0, 0⟩, ⟨1, 1, 0⟩] := rfl
  constructor
  · refine ⟨⟨0, 0, 0⟩, ⟨0, 0, 1⟩, ?_, ?_⟩
    · intro hz
      exact absurd (congrArg Point.z hz) (by norm_num [zeroPoint])
    · intro p hp
      rw [hcoords] at hp
      fin_cases hp <;> norm_num [dot_vectors, subtract_vectors]
  · have hbf : bestfit_plane_from_points (collinearQuadMesh.face_coordinates 0) =
        .ok (⟨0, 0, 0⟩, ⟨0, 0, 1⟩) := by
      rw [hcoords]
      norm_num [bestfit_plane_from_points, pairsFrom, firstNormal, cross_vectors,
        subtract_vectors, zeroPoint, Point.ext_iff]
    have hfd : faceDev (collinearQuadMesh.face_coordinates 0) =
        .error .zeroLengthVector := by
      unfold faceDev
      rw [hbf]
      dsimp only
      have hw : window3 (collinearQuadMesh.face_coordinates 0 ++
          (collinearQuadMesh.face_coordinates 0).take 2) =
          [(⟨0, 0, 0⟩, ⟨1, 0, 0⟩, ⟨2, 0, 0⟩), (⟨1, 0, 0⟩, ⟨2, 0, 0⟩, ⟨1, 1, 0⟩),
           (⟨2, 0, 0⟩, ⟨1, 1, 0⟩, ⟨0, 0, 0⟩), (⟨1, 1, 0⟩, ⟨0, 0, 0⟩, ⟨1, 0, 0⟩)] := rfl
      rw [hw]
      simp only [mapExcept]
      norm_num [cross_vectors, subtract_vectors, dot_vectors, scale_vector,
        angle_smallest_vectors, zeroPoint, Point.ext_iff]
    unfold mesh_flatness
    have hfaces : collinearQuadMesh.faces = [(0, [0, 1, 2, 3])] := rfl
    rw [hfaces]
    simp only [mapExcept]
    rw [hfd]
